import Mathlib

set_option maxHeartbeats 1000000

/- Shallow embedding of src/main.go (TF_2_DOC): the slug generator, the
   Markdown table-of-contents builder, the Markdown table renderer with
   cell escaping, and the variables-table extraction pipeline.

   Strings are modelled as Lean `String` (sequences of Unicode code
   points); the Go code operates on UTF-8 bytes, which agrees with this
   model on ASCII data.  `int` parameters of the Go functions are
   modelled as `Int` with the exact comparisons of the source. -/

/-- Characters removed by `slugify` (the Go `droppedChars` list, in
    source order). -/
def droppedChars : List Char :=
  ['\x22', '\x27', '\x60', '.',
   '!', ',', '~', '&',
   '%', '^', '*', '#',
   '@', '|',
   '(', ')',
   '\x7b', '\x7d',
   '[', ']']

/-- Go `strings.ToLower`, accurate on ASCII input (the Go function also
    folds non-ASCII letters; every character this repository manipulates
    is ASCII). -/
def goToLower (s : String) : String :=
  String.mk (s.data.map Char.toLower)

/-- Go `slugify`: lower-case, drop the fixed punctuation set, then
    replace every space with a hyphen.  Each Go
    `strings.Replace(s, c, "", -1)` with a single-character pattern
    removes all occurrences of that character, so the chain of calls is
    the filter below. -/
def slugify (s : String) : String :=
  let low := goToLower s
  let dropped := String.mk (low.data.filter (fun c => ¬ droppedChars.contains c))
  String.mk (dropped.data.map (fun c => if c = ' ' then '-' else c))

/-- Number of leading '#' characters of a line. -/
def leadingHashes (l : List Char) : Nat :=
  (l.takeWhile (fun c => c = '#')).length

/-- Model of Go `rHashHeader = ^(?P<indent>#+) ?(?P<title>.+)$` under
    Go's leftmost-first (Perl-preference) submatch semantics: `#+` is
    greedy, ` ?` prefers to consume a space, `.+` needs at least one
    character.  For a line of hashes only (h hashes, h ≥ 2) the greedy
    `#+` backtracks one step, so the matched indent is h - 1 and the
    title is the final "#".  Returns (indent length, title). -/
def hashHeaderMatch (l : List Char) : Option (Nat × List Char) :=
  let h := leadingHashes l
  if h = 0 then none
  else
    match l.drop h with
    | [] => if 2 ≤ h then some (h - 1, ['#']) else none
    | [' '] => some (h, [' '])
    | ' ' :: c :: rest => some (h, c :: rest)
    | rest => some (h, rest)

/-- Model of Go `rUnderscoreHeader1 = ^=+$`. -/
def isEqLine (s : String) : Bool :=
  !s.data.isEmpty && s.data.all (fun c => c = '=')

/-- Model of Go `rUnderscoreHeader2 = ^\-+$`. -/
def isDashLine (s : String) : Bool :=
  !s.data.isEmpty && s.data.all (fun c => c = '-')

/-- Decimal digit characters, as produced by Go `fmt` for `%d`. -/
def digitChar : Nat → Char
  | 0 => '0' | 1 => '1' | 2 => '2' | 3 => '3' | 4 => '4'
  | 5 => '5' | 6 => '6' | 7 => '7' | 8 => '8' | _ => '9'

/-- Fuel-driven big-endian decimal rendering (the fuel only serves
    structural termination; `n + 1` fuel always suffices). -/
def decReprGo : Nat → Nat → List Char
  | 0, _ => []
  | fuel + 1, n =>
    if n < 10 then [digitChar n]
    else decReprGo fuel (n / 10) ++ [digitChar (n % 10)]

/-- Model of Go `fmt.Sprintf("%d", n)` for a natural number. -/
def decRepr (n : Nat) : String :=
  String.mk (decReprGo (n + 1) n)

/-- One entry of the generated table of contents (the spec's
    `TocEntry`): display title, anchor slug, zero-based depth. -/
structure TocEntry where
  title : String
  slug : String
  depth : Nat
  deriving DecidableEq

/-- Association-list model of a Go `map[string]V`: only the key set and
    per-key values are observable in the source, both of which this
    representation reproduces exactly. -/
def mapSet {α : Type} : List (String × α) → String → α → List (String × α)
  | [], k, v => [(k, v)]
  | p :: rest, k, v =>
    if p.1 = k then (k, v) :: rest else p :: mapSet rest k v

/-- Lookup in the association-list model of a Go map. -/
def mapLookup {α : Type} : List (String × α) → String → Option α
  | [], _ => none
  | p :: rest, k => if p.1 = k then some p.2 else mapLookup rest k

/-- The spec's `SlugRegistry`: the Go `seenHeaders map[string]int`. -/
abbrev SlugRegistry := List (String × Nat)

/-- The slug-assignment core of Go `appendToC`, applied to the list of
    heading events (title, indent) produced by one scan: while
    `skipHeaders > 0` an event is dropped and the counter decremented;
    otherwise a colliding slug `link` with registry count n is emitted
    as `link-n` (Go increments the registry to n+1 and renders
    `seenHeaders[link]-1 = n`) and a fresh slug is registered with
    count 1.  Returns the emitted entries and the final
    (skipHeaders, seenHeaders) state. -/
def emitToc : Int → SlugRegistry → List (String × Nat) → List TocEntry × Int × SlugRegistry
  | skip, seen, [] => ([], skip, seen)
  | skip, seen, (title, indent) :: evs =>
    let link := slugify title
    if 0 < skip then
      emitToc (skip - 1) seen evs
    else
      match mapLookup seen link with
      | some n =>
        let r := emitToc skip (mapSet seen link (n + 1)) evs
        (⟨title, link ++ "-" ++ decRepr n, indent⟩ :: r.1, r.2)
      | none =>
        let r := emitToc skip (mapSet seen link 1) evs
        (⟨title, link, indent⟩ :: r.1, r.2)

/-- The heading events one scanned line contributes, given the current
    `previousLine`: the three regexp cases of the Go `switch` in source
    order, including the two `continue` depth filters
    (`depth > 0 && len(m[1]) > depth` and `depth > 0 && depth < 2`). -/
def lineEvents (depth : Int) (prev : String) (line : String) : List (String × Nat) :=
  match hashHeaderMatch line.data with
  | some (h, t) =>
    if 0 < depth ∧ depth < (h : Int) then [] else [(String.mk t, h - 1)]
  | none =>
    if isEqLine line then [(prev, 0)]
    else if isDashLine line then
      if 0 < depth ∧ depth < 2 then [] else [(prev, 1)]
    else []

/-- Heading events of a whole scan: each line contributes its events and
    then becomes the new `previousLine` (the Go loop assigns
    `previousLine = s.Text()` unconditionally at the end of each
    iteration). -/
def scanEvents (depth : Int) : String → List String → List (String × Nat)
  | _, [] => []
  | prev, l :: ls => lineEvents depth prev l ++ scanEvents depth l ls

/-- Go `fmt.Sprintf("%s1. [%s](#%s)", strings.Repeat("   ", indent), title, link)`. -/
def mkTocLine (indent : Nat) (title link : String) : String :=
  String.join (List.replicate indent "   ") ++ "1. [" ++ title ++ "](#" ++ link ++ ")"

/-- Rendering of one TOC entry as the emitted line. -/
def renderEntry (e : TocEntry) : String :=
  mkTocLine e.depth e.title e.slug

/-- The local state of one `BuildMarkdownToc` call: the variables
    captured by the Go `appendToC` closure plus `previousLine`. -/
structure ScanState where
  skipHeaders : Int
  seenHeaders : SlugRegistry
  toc : List String
  previousLine : String
  deriving DecidableEq

/-- Go `appendToC`, verbatim: slugify, skip handling, collision suffix,
    line rendering. -/
def appendToC (st : ScanState) (title : String) (indent : Nat) : ScanState :=
  let link := slugify title
  if 0 < st.skipHeaders then
    { st with skipHeaders := st.skipHeaders - 1 }
  else
    match mapLookup st.seenHeaders link with
    | some n =>
      { st with
        seenHeaders := mapSet st.seenHeaders link (n + 1),
        toc := st.toc ++ [mkTocLine indent title (link ++ "-" ++ decRepr n)] }
    | none =>
      { st with
        seenHeaders := mapSet st.seenHeaders link 1,
        toc := st.toc ++ [mkTocLine indent title link] }

/-- The body of the Go scan loop for one line: the three-case `switch`
    (hash header with its depth filter, `=` underline, `-` underline
    with its depth filter) followed by the unconditional
    `previousLine = s.Text()`. -/
def scanLine (depth : Int) (st : ScanState) (line : String) : ScanState :=
  let st1 :=
    match hashHeaderMatch line.data with
    | some (h, t) =>
      if 0 < depth ∧ depth < (h : Int) then st
      else appendToC st (String.mk t) (h - 1)
    | none =>
      if isEqLine line then appendToC st st.previousLine 0
      else if isDashLine line then
        if 0 < depth ∧ depth < 2 then st
        else appendToC st st.previousLine 1
      else st
  { st1 with previousLine := line }

/-- The fixed two-line banner the Go code seeds `toc` with. -/
def tocBanner : List String :=
  ["Table of Contents", "================="]

/-- Go `BuildMarkdownToc`.  The `bufio.Scanner` is modelled by the list
    of lines it delivers plus the optional error reported by `s.Err()`
    afterwards; on error the Go function returns `([]string{}, err)`,
    discarding the accumulated slice. -/
def BuildMarkdownToc (d : List String) (scanErr : Option String) (depth skip : Int) :
    List String × Option String :=
  let init : ScanState :=
    { skipHeaders := skip, seenHeaders := [], toc := tocBanner, previousLine := "" }
  let final := d.foldl (scanLine depth) init
  match scanErr with
  | some e => ([], some e)
  | none => (final.toc, none)

/-- The entries emitted by one `BuildMarkdownToc` scan, in order. -/
def tocEntries (d : List String) (depth skip : Int) : List TocEntry :=
  (emitToc skip [] (scanEvents depth "" d)).1

/-- Character-level replacement performed by Go
    `regexp.MustCompile(`+"`"+`\r?\n`+"`"+`).ReplaceAllString(cellText, "<br>")`:
    each maximal match of `\r?\n` (a CRLF pair, else a bare LF) becomes
    the four characters `<br>`; everything else is copied unchanged. -/
def escChars : List Char → List Char
  | [] => []
  | '\r' :: '\n' :: rest => '<' :: 'b' :: 'r' :: '>' :: escChars rest
  | '\n' :: rest => '<' :: 'b' :: 'r' :: '>' :: escChars rest
  | c :: rest => c :: escChars rest

/-- Go `MarkdownTableCellEscape`. -/
def MarkdownTableCellEscape (cellText : String) : String :=
  String.mk (escChars cellText.data)

/-- Go `MarkdownTable`: header row, separator row from the supplied rule
    tokens verbatim, then one row per data row with each cell passed
    through `MarkdownTableCellEscape`. -/
def MarkdownTable (headings lengths : List String) (data : List (List String)) : String :=
  let t := "|"
  let t := headings.foldl (fun acc h => acc ++ " " ++ h ++ " |") t
  let t := t ++ "\n|"
  let t := lengths.foldl (fun acc l => acc ++ " " ++ l ++ " |") t
  data.foldl
    (fun acc row =>
      row.foldl (fun a v => a ++ " " ++ MarkdownTableCellEscape v ++ " |") (acc ++ "\n|"))
    t

/-- Split a character list at every occurrence of `sep` (model of Go
    `strings.Split` with a one-character separator; also used to cut a
    rendered table into its physical text lines). -/
def splitOnChar (sep : Char) : List Char → List (List Char)
  | [] => [[]]
  | c :: rest =>
    if c = sep then [] :: splitOnChar sep rest
    else
      match splitOnChar sep rest with
      | [] => [[c]]
      | l :: ls => (c :: l) :: ls

/-- The physical text lines of a rendered string. -/
def textLines (s : String) : List String :=
  (splitOnChar '\n' s.data).map String.mk

/-- The row type of the extraction layer (Go `TfTableObject`); the Go
    field `Type` is a Lean keyword and is rendered `Typ`. -/
structure TfTableObject where
  Name : String
  Typ : String
  Description : String
  Location : String
  deriving DecidableEq

/-- The fields of a `tfconfig.Variable` consumed by `GetVarsTable`. -/
structure TfVariable where
  name : String
  type : String
  description : String
  filename : String
  line : Int
  deriving DecidableEq

/-- Last `/`-separated component of a path (Go
    `tfpathbits[len(tfpathbits)-1]` after `strings.Split(…, "/")`). -/
def tfFile (filename : String) : String :=
  String.mk ((splitOnChar '/' filename.data).getLastD [])

/-- Go `fmt.Sprintf("[%s: %d](%s/%s/%s#L%d)", tffile, line, baseUrl, modulePath, tffile, line)`. -/
def locationLink (filename : String) (line : Int) (baseUrl modulePath : String) : String :=
  "[" ++ tfFile filename ++ ": " ++ toString line ++ "](" ++ baseUrl ++ "/" ++
    modulePath ++ "/" ++ tfFile filename ++ "#L" ++ toString line ++ ")"

/-- The `TfTableObject` built for one variable item inside
    `GetVarsTable`. -/
def varTableObject (baseUrl modulePath : String) (it : TfVariable) : TfTableObject :=
  { Name := it.name, Typ := it.type, Description := it.description,
    Location := locationLink it.filename it.line baseUrl modulePath }

/-- The `objs` map of `GetVarsTable`: `objs[item.Name] = TfTableObject{…}`
    over the module's variables in iteration order. -/
def buildObjs (baseUrl modulePath : String) (items : List TfVariable) :
    List (String × TfTableObject) :=
  items.foldl (fun m it => mapSet m it.name (varTableObject baseUrl modulePath it)) []

/-- Lexicographic comparison of character lists by code point (Go's
    `<=` on strings compares bytes; on ASCII data byte order and
    code-point order coincide). -/
def charListLe : List Char → List Char → Bool
  | [], _ => true
  | _ :: _, [] => false
  | a :: as, b :: bs =>
    if a.toNat < b.toNat then true
    else if b.toNat < a.toNat then false
    else charListLe as bs

/-- The string order used by Go `sort.Strings`. -/
def strLeB (a b : String) : Bool :=
  charListLe a.data b.data

/-- Go `getSortedKeys`: the key set of the map, sorted with
    `sort.Strings` (insertion sort is a valid model: `sort.Strings` is
    a comparison sort for the same total order, and sorted permutations
    of one list under a total antisymmetric order are unique). -/
def getSortedKeys (objs : List (String × TfTableObject)) : List String :=
  List.insertionSort (fun a b => strLeB a b = true) (objs.map Prod.fst)

/-- Row lookup for a key produced by `getSortedKeys`; such a key is
    always present, the default object is never reached. -/
def objAt (objs : List (String × TfTableObject)) (k : String) : TfTableObject :=
  (mapLookup objs k).getD ⟨"", "", "", ""⟩

/-- The `data` slice assembled by `GetVarsTable` before rendering. -/
def varsTableData (baseUrl modulePath : String) (items : List TfVariable) :
    List (List String) :=
  let objs := buildObjs baseUrl modulePath items
  (getSortedKeys objs).map fun k =>
    [(objAt objs k).Name, (objAt objs k).Typ, (objAt objs k).Description,
     (objAt objs k).Location]

/-- Go `GetVarsTable`. -/
def GetVarsTable (module : List TfVariable) (baseUrl modulePath : String) : String :=
  MarkdownTable
    ["Variable", "Type", "Description", "Code Position"]
    ["----", "------", "--------", "------"]
    (varsTableData baseUrl modulePath module)

/-- Numeric value of a decimal digit character. -/
def decDigitVal (c : Char) : Nat := c.toNat - 48

/-- Numeric value of a big-endian decimal digit string. -/
def decVal (l : List Char) : Nat :=
  l.foldl (fun a c => a * 10 + decDigitVal c) 0

theorem decVal_append_digit (l : List Char) (c : Char) :
    decVal (l ++ [c]) = decVal l * 10 + decDigitVal c := by
  simp [decVal, List.foldl_append]

theorem decDigitVal_digitChar {d : Nat} (h : d < 10) :
    decDigitVal (digitChar d) = d := by
  interval_cases d <;> decide

theorem decVal_decReprGo : ∀ (fuel n : Nat), n < fuel →
    decVal (decReprGo fuel n) = n := by
  intro fuel
  induction fuel with
  | zero => intro n h; omega
  | succ f ih =>
    intro n h
    by_cases hn : n < 10
    · simp [decReprGo, hn, decVal, decDigitVal_digitChar hn]
    · have h10 : 10 ≤ n := Nat.le_of_not_lt hn
      have hdiv : n / 10 < n := Nat.div_lt_self (by omega) (by omega)
      have : decVal (decReprGo f (n / 10)) = n / 10 := ih _ (by omega)
      simp [decReprGo, hn, decVal_append_digit, this,
        decDigitVal_digitChar (Nat.mod_lt n (by omega))]
      omega

theorem decVal_decRepr (n : Nat) : decVal (decRepr n).data = n :=
  decVal_decReprGo (n + 1) n (Nat.lt_succ_self n)

theorem decRepr_injective {m n : Nat} (h : decRepr m = decRepr n) : m = n := by
  have := congrArg (fun s => decVal (String.data s)) h
  simpa [decVal_decRepr] using this

theorem decReprGo_ne_nil (n : Nat) : decReprGo (n + 1) n ≠ [] := by
  by_cases hn : n < 10 <;> simp [decReprGo, hn]

theorem decRepr_length_pos (n : Nat) : 0 < (decRepr n).length := by
  have := decReprGo_ne_nil n
  simp only [decRepr, String.length]
  exact List.length_pos.mpr this

theorem mapLookup_mapSet_self {α : Type} (m : List (String × α)) (k : String) (v : α) :
    mapLookup (mapSet m k v) k = some v := by
  induction m with
  | nil => simp [mapSet, mapLookup]
  | cons p rest ih =>
    by_cases h : p.1 = k <;> simp [mapSet, mapLookup, h, ih]

theorem mapLookup_mapSet_ne {α : Type} (m : List (String × α)) (k k' : String) (v : α)
    (h : k' ≠ k) : mapLookup (mapSet m k v) k' = mapLookup m k' := by
  have hk : k ≠ k' := Ne.symm h
  induction m with
  | nil => simp [mapSet, mapLookup, hk]
  | cons p rest ih =>
    by_cases hp : p.1 = k
    · subst hp; simp [mapSet, mapLookup, hk]
    · simp [mapSet, mapLookup, hp, ih]

theorem mapSet_forall_val {α : Type} {P : α → Prop} {m : List (String × α)}
    {k : String} {v : α} (hm : ∀ p ∈ m, P p.2) (hv : P v) :
    ∀ p ∈ mapSet m k v, P p.2 := by
  induction m with
  | nil => simpa [mapSet] using hv
  | cons q rest ih =>
    intro p hp
    by_cases hq : q.1 = k
    · simp [mapSet, hq] at hp
      rcases hp with h | h
      · rw [h]; exact hv
      · exact hm p (List.mem_cons_of_mem _ h)
    · simp [mapSet, hq] at hp
      rcases hp with h | h
      · exact hm p (by simp [h])
      · exact ih (fun q hqm => hm q (List.mem_cons_of_mem _ hqm)) p h

theorem emitToc_append : ∀ (e₁ e₂ : List (String × Nat)) (skip : Int) (seen : SlugRegistry),
    emitToc skip seen (e₁ ++ e₂) =
      ((emitToc skip seen e₁).1 ++
        (emitToc (emitToc skip seen e₁).2.1 (emitToc skip seen e₁).2.2 e₂).1,
       (emitToc (emitToc skip seen e₁).2.1 (emitToc skip seen e₁).2.2 e₂).2) := by
  intro e₁
  induction e₁ with
  | nil => intro e₂ skip seen; simp [emitToc]
  | cons ev rest ih =>
    intro e₂ skip seen
    obtain ⟨title, indent⟩ := ev
    by_cases hs : 0 < skip
    · simp [emitToc, hs, ih]
    · cases hlk : mapLookup seen (slugify title) with
      | some n => simp [emitToc, hs, hlk, ih]
      | none => simp [emitToc, hs, hlk, ih]

theorem appendToC_eq_emit (st : ScanState) (t : String) (d : Nat) :
    appendToC st t d =
      { skipHeaders := (emitToc st.skipHeaders st.seenHeaders [(t, d)]).2.1,
        seenHeaders := (emitToc st.skipHeaders st.seenHeaders [(t, d)]).2.2,
        toc := st.toc ++ ((emitToc st.skipHeaders st.seenHeaders [(t, d)]).1.map renderEntry),
        previousLine := st.previousLine } := by
  by_cases hs : 0 < st.skipHeaders
  · simp [appendToC, emitToc, hs]
  · cases hlk : mapLookup st.seenHeaders (slugify t) with
    | some n => simp [appendToC, emitToc, hs, hlk, renderEntry]
    | none => simp [appendToC, emitToc, hs, hlk, renderEntry]

theorem scanLine_eq_emit (depth : Int) (st : ScanState) (l : String) :
    scanLine depth st l =
      { skipHeaders :=
          (emitToc st.skipHeaders st.seenHeaders (lineEvents depth st.previousLine l)).2.1,
        seenHeaders :=
          (emitToc st.skipHeaders st.seenHeaders (lineEvents depth st.previousLine l)).2.2,
        toc := st.toc ++
          ((emitToc st.skipHeaders st.seenHeaders (lineEvents depth st.previousLine l)).1.map
            renderEntry),
        previousLine := l } := by
  unfold scanLine lineEvents
  cases hm : hashHeaderMatch l.data with
  | some p =>
    obtain ⟨h, t⟩ := p
    by_cases hd : 0 < depth ∧ depth < (h : Int)
    · simp [hd, emitToc]
    · simp [hd, appendToC_eq_emit]
  | none =>
    by_cases he : isEqLine l
    · simp [he, appendToC_eq_emit]
    · by_cases hdash : isDashLine l
      · by_cases hd : 0 < depth ∧ depth < 2
        · simp [he, hdash, hd, emitToc]
        · simp [he, hdash, hd, appendToC_eq_emit]
      · simp [he, hdash, emitToc]

theorem foldl_scanLine_eq (depth : Int) : ∀ (lines : List String) (st : ScanState),
    lines.foldl (scanLine depth) st =
      { skipHeaders :=
          (emitToc st.skipHeaders st.seenHeaders (scanEvents depth st.previousLine lines)).2.1,
        seenHeaders :=
          (emitToc st.skipHeaders st.seenHeaders (scanEvents depth st.previousLine lines)).2.2,
        toc := st.toc ++
          ((emitToc st.skipHeaders st.seenHeaders
              (scanEvents depth st.previousLine lines)).1.map renderEntry),
        previousLine := lines.getLastD st.previousLine } := by
  intro lines
  induction lines with
  | nil => intro st; simp [scanEvents, emitToc]
  | cons l rest ih =>
    intro st
    rw [List.foldl_cons, scanLine_eq_emit, ih]
    simp only [scanEvents, emitToc_append, List.map_append, List.append_assoc,
      List.getLastD_cons]

theorem buildToc_none (lines : List String) (depth skip : Int) :
    BuildMarkdownToc lines none depth skip =
      (tocBanner ++ (tocEntries lines depth skip).map renderEntry, none) := by
  simp [BuildMarkdownToc, tocEntries, foldl_scanLine_eq]

theorem charListLe_total : ∀ (a b : List Char),
    charListLe a b = true ∨ charListLe b a = true := by
  intro a
  induction a with
  | nil => intro b; left; simp [charListLe]
  | cons x xs ih =>
    intro b
    cases b with
    | nil => right; simp [charListLe]
    | cons y ys =>
      by_cases hxy : x.toNat < y.toNat
      · left; simp [charListLe, hxy]
      · by_cases hyx : y.toNat < x.toNat
        · right; simp [charListLe, hyx]
        · rcases ih ys with h | h
          · left; simp [charListLe, hxy, hyx, h]
          · right; simp [charListLe, hxy, hyx, h]

theorem charListLe_trans : ∀ (a b c : List Char),
    charListLe a b = true → charListLe b c = true → charListLe a c = true := by
  intro a
  induction a with
  | nil => intro b c _ _; simp [charListLe]
  | cons x xs ih =>
    intro b c hab hbc
    cases b with
    | nil => simp [charListLe] at hab
    | cons y ys =>
      cases c with
      | nil => simp [charListLe] at hbc
      | cons z zs =>
        simp only [charListLe] at hab hbc ⊢
        by_cases hxy : x.toNat < y.toNat
        · by_cases hyz : y.toNat < z.toNat
          · simp [show x.toNat < z.toNat by omega]
          · by_cases hzy : z.toNat < y.toNat
            · simp [hyz, hzy] at hbc
            · simp [show x.toNat < z.toNat by omega]
        · by_cases hyx : y.toNat < x.toNat
          · simp [hxy, hyx] at hab
          · by_cases hyz : y.toNat < z.toNat
            · simp [show x.toNat < z.toNat by omega]
            · by_cases hzy : z.toNat < y.toNat
              · simp [hyz, hzy] at hbc
              · have hxz : ¬ x.toNat < z.toNat := by omega
                have hzx : ¬ z.toNat < x.toNat := by omega
                simp only [hxy, hyx, if_false, hyz, hzy] at hab hbc
                simp only [hxz, hzx, if_false]
                exact ih ys zs hab hbc

theorem char_eq_of_toNat_eq {x y : Char} (h : x.toNat = y.toNat) : x = y := by
  have hx := Char.ofNat_toNat x
  have hy := Char.ofNat_toNat y
  rw [← hx, ← hy, h]

theorem charListLe_antisymm : ∀ (a b : List Char),
    charListLe a b = true → charListLe b a = true → a = b := by
  intro a
  induction a with
  | nil =>
    intro b h1 _
    cases b with
    | nil => rfl
    | cons y ys => simp [charListLe] at *
  | cons x xs ih =>
    intro b h1 h2
    cases b with
    | nil => simp [charListLe] at h1
    | cons y ys =>
      by_cases hxy : x.toNat < y.toNat
      · simp [charListLe, hxy, show ¬ y.toNat < x.toNat by omega] at h2
      · by_cases hyx : y.toNat < x.toNat
        · simp [charListLe, hxy, hyx] at h1
        · have hx : x = y := char_eq_of_toNat_eq (by omega)
          simp only [charListLe, hxy, hyx, if_false] at h1 h2
          rw [hx, ih ys h1 h2]

instance : IsTotal String (fun a b => strLeB a b = true) :=
  ⟨fun a b => charListLe_total a.data b.data⟩

instance : IsTrans String (fun a b => strLeB a b = true) :=
  ⟨fun a b c => charListLe_trans a.data b.data c.data⟩

instance : IsAntisymm String (fun a b => strLeB a b = true) :=
  ⟨fun a b h1 h2 => by
    cases a with
    | mk da => cases b with
      | mk db => exact congrArg String.mk (charListLe_antisymm da db h1 h2)⟩

theorem string_data_append (a b : String) : (a ++ b).data = a.data ++ b.data := rfl

theorem string_ext {a b : String} (h : a.data = b.data) : a = b := by
  cases a; cases b; exact congrArg String.mk h

theorem string_append_left_cancel {a x y : String} (h : a ++ x = a ++ y) : x = y := by
  apply string_ext
  have hd := congrArg String.data h
  rw [string_data_append, string_data_append] at hd
  exact List.append_cancel_left hd

theorem suffix_slug_ne_base (b : String) (n : Nat) :
    b ≠ b ++ "-" ++ decRepr n := by
  intro h
  have hl := congrArg String.length h
  rw [String.length_append, String.length_append] at hl
  have hone : ("-" : String).length = 1 := rfl
  rw [hone] at hl
  have hp := decRepr_length_pos n
  omega

theorem suffix_slug_inj {b : String} {m n : Nat}
    (h : b ++ "-" ++ decRepr m = b ++ "-" ++ decRepr n) : m = n := by
  rw [String.append_assoc, String.append_assoc] at h
  have h1 := string_append_left_cancel h
  have h2 := string_append_left_cancel h1
  exact decRepr_injective h2

theorem mapLookup_mem {α : Type} : ∀ {m : List (String × α)} {k : String} {v : α},
    mapLookup m k = some v → (k, v) ∈ m := by
  intro m
  induction m with
  | nil => intro k v h; simp [mapLookup] at h
  | cons p rest ih =>
    intro k v h
    by_cases hp : p.1 = k
    · simp [mapLookup, hp] at h
      have hpk : p = (k, v) := Prod.ext hp h
      rw [← hpk]
      exact List.mem_cons_self p rest
    · simp [mapLookup, hp] at h
      exact List.mem_cons_of_mem _ (ih h)

theorem hashHeaderMatch_of_eqLine {l : String} (h : isEqLine l = true) :
    hashHeaderMatch l.data = none := by
  simp only [isEqLine, Bool.and_eq_true, Bool.not_eq_true'] at h
  obtain ⟨hne, hall⟩ := h
  cases hd : l.data with
  | nil => rw [hd] at hne; simp at hne
  | cons c cs =>
    rw [hd] at hall
    have hc : c = '=' := by
      simp [List.all_cons] at hall
      exact hall.1
    subst hc
    simp [hashHeaderMatch, leadingHashes, List.takeWhile_cons]

/-- C9: when the underlying line iteration reports an error,
    `BuildMarkdownToc` returns that error together with the empty line
    sequence, discarding every accumulated entry; on a successful scan
    the returned error is `none`. -/
theorem c9_scan_error_total_failure (lines : List String) (depth skip : Int) (e : String) :
    BuildMarkdownToc lines (some e) depth skip = ([], some e)
    ∧ (BuildMarkdownToc lines none depth skip).2 = none := by
  constructor
  · rfl
  · rfl

/-- C10: every scanned line, heading lines included, becomes the new
    `previousLine`; hence a line of `=` characters directly after the
    ATX heading `# A` emits an extra depth-0 Setext entry titled with
    the raw text `# A`, hash character included. -/
theorem c10_previous_line_updated_by_every_line (depth : Int) (st : ScanState) (l : String) :
    (scanLine depth st l).previousLine = l
    ∧ BuildMarkdownToc ["# A", "==="] none 0 0 =
        (["Table of Contents", "=================", "1. [A](#a)", "1. [# A](#-a)"], none) := by
  constructor
  · rfl
  · decide

/-- C3 counterexample: a line of `=` characters that is the very first
    line of the document (so its previous line is absent, i.e. blank)
    DOES produce a TOC entry — with empty title and empty slug —
    contrary to the claim that no entry is produced. -/
theorem c3_counterexample_eq_line_at_start :
    tocEntries ["==="] 0 0 = [{ title := "", slug := "", depth := 0 }]
    ∧ BuildMarkdownToc ["==="] none 0 0 =
        (["Table of Contents", "=================", "1. [](#)"], none) := by
  exact ⟨by decide, by decide⟩

/-- C3 amended: a line consisting entirely of `=` characters always
    emits a depth-0 Setext entry whose title is the previous line's
    text — the code never checks that the previous line is non-blank,
    so at document start (or after a blank line) the emitted title is
    the empty string.  A non-blank line `Title` followed by `===` still
    yields the depth-0 entry `Title`. -/
theorem c3_amended_setext1_unconditional (depth : Int) (prev l : String)
    (rest : List String) (h : isEqLine l = true) :
    scanEvents depth prev (l :: rest) = (prev, 0) :: scanEvents depth l rest
    ∧ BuildMarkdownToc ["Title", "==="] none 0 0 =
        (["Table of Contents", "=================", "1. [Title](#title)"], none) := by
  constructor
  · simp [scanEvents, lineEvents, hashHeaderMatch_of_eqLine h, h]
  · decide

theorem c3_amended_setext1_unconditional_witness :
    scanEvents 0 "Intro" ["==", "x"] = ("Intro", 0) :: scanEvents 0 "==" ["x"]
    ∧ BuildMarkdownToc ["Title", "==="] none 0 0 =
        (["Table of Contents", "=================", "1. [Title](#title)"], none) :=
  c3_amended_setext1_unconditional 0 "Intro" "==" ["x"] (by decide)

/-- C2: three heading events whose titles all slugify to the same base
    get the slugs base, base-1, base-2 in that order: the first
    collision appends `-1`, the next `-2`.  Instantiated by the
    `# Intro` document of the spec. -/
theorem c2_collision_suffix_numbering (t₁ t₂ t₃ : String) (d₁ d₂ d₃ : Nat) (b : String)
    (h₁ : slugify t₁ = b) (h₂ : slugify t₂ = b) (h₃ : slugify t₃ = b) :
    (emitToc 0 [] [(t₁, d₁), (t₂, d₂), (t₃, d₃)]).1.map TocEntry.slug
        = [b, b ++ "-1", b ++ "-2"]
    ∧ BuildMarkdownToc ["# Intro", "# Intro", "# Intro"] none 0 0 =
        (["Table of Contents", "=================",
          "1. [Intro](#intro)", "1. [Intro](#intro-1)", "1. [Intro](#intro-2)"], none) := by
  constructor
  · have e1 : ("-" : String) ++ decRepr 1 = "-1" := by decide
    have e2 : ("-" : String) ++ decRepr 2 = "-2" := by decide
    simp [emitToc, h₁, h₂, h₃, mapLookup, mapSet, String.append_assoc, e1, e2]
  · decide

theorem c2_collision_suffix_numbering_witness :
    (emitToc 0 [] [("Intro", 0), ("Intro", 0), ("Intro", 0)]).1.map TocEntry.slug
        = ["intro", "intro" ++ "-1", "intro" ++ "-2"]
    ∧ BuildMarkdownToc ["# Intro", "# Intro", "# Intro"] none 0 0 =
        (["Table of Contents", "=================",
          "1. [Intro](#intro)", "1. [Intro](#intro-1)", "1. [Intro](#intro-2)"], none) :=
  c2_collision_suffix_numbering "Intro" "Intro" "Intro" 0 0 0 "intro"
    (by decide) (by decide) (by decide)

theorem emitToc_skip_drop : ∀ (evs : List (String × Nat)) (N : Int) (seen : SlugRegistry),
    0 ≤ N → (emitToc N seen evs).1 = (emitToc 0 seen (evs.drop N.toNat)).1 := by
  intro evs
  induction evs with
  | nil => intro N seen _; simp [emitToc]
  | cons ev rest ih =>
    intro N seen h
    obtain ⟨t, d⟩ := ev
    by_cases hN : 0 < N
    · have ht : N.toNat = (N - 1).toNat + 1 := by omega
      rw [ht, List.drop_succ_cons, ← ih (N - 1) seen (by omega)]
      simp [emitToc, hN]
    · have hz : N = 0 := by omega
      subst hz
      simp

/-- C5: with `skipCount = N ≥ 0` the emitted entries are exactly those
    of the event list with its first N events removed (so the first N
    headings passing the depth filter are absent), a skipped event
    leaves the slug registry untouched, and two identical headings with
    `skipCount = 1` yield one entry with the unsuffixed slug. -/
theorem c5_skip_count (N : Int) (hN : 0 ≤ N) :
    (∀ (seen : SlugRegistry) (evs : List (String × Nat)),
        (emitToc N seen evs).1 = (emitToc 0 seen (evs.drop N.toNat)).1)
    ∧ (∀ (seen : SlugRegistry) (t : String) (dep : Nat) (evs : List (String × Nat)),
        0 < N → emitToc N seen ((t, dep) :: evs) = emitToc (N - 1) seen evs)
    ∧ BuildMarkdownToc ["# T", "# T"] none 0 1 =
        (["Table of Contents", "=================", "1. [T](#t)"], none) := by
  refine ⟨fun seen evs => emitToc_skip_drop evs N seen hN,
    fun seen t dep evs h => ?_, by decide⟩
  simp [emitToc, h]

theorem c5_skip_count_witness :
    (emitToc 1 [] [("A", 0), ("B", 0)]).1
        = (emitToc 0 [] ([("A", 0), ("B", 0)].drop (1 : Int).toNat)).1
    ∧ BuildMarkdownToc ["# T", "# T"] none 0 1 =
        (["Table of Contents", "=================", "1. [T](#t)"], none) :=
  ⟨(c5_skip_count 1 (by decide)).1 [] [("A", 0), ("B", 0)],
   (c5_skip_count 1 (by decide)).2.2⟩

theorem leadingHashes_replicate_append (H : Nat) (T : List Char)
    (hhd : ∀ c, T.head? = some c → c ≠ '#') :
    leadingHashes (List.replicate H '#' ++ T) = H := by
  induction H with
  | zero =>
    cases T with
    | nil => rfl
    | cons c cs =>
      have hc := hhd c rfl
      simp [leadingHashes, List.takeWhile_cons, hc]
  | succ n ih =>
    simp only [leadingHashes, List.replicate_succ, List.cons_append, List.takeWhile_cons]
    simp only [leadingHashes] at ih
    simp [ih]
    intro hl
    exact hhd _ (by rw [List.head?_eq_getElem?, List.getElem?_eq_getElem hl])

theorem hashHeaderMatch_atx {H : Nat} {T : List Char} (hH : 0 < H) (hT : T ≠ [])
    (hhd : ∀ c, T.head? = some c → c ≠ '#') :
    ∃ t, hashHeaderMatch (List.replicate H '#' ++ T) = some (H, t) := by
  have hlead := leadingHashes_replicate_append H T hhd
  have hdrop : (List.replicate H '#' ++ T).drop H = T := by
    have h2 := List.drop_left (List.replicate H '#') T
    rwa [List.length_replicate] at h2
  simp [hashHeaderMatch, hlead, hdrop, Nat.pos_iff_ne_zero.mp hH]
  split
  · exact absurd rfl hT
  · exact ⟨_, rfl⟩
  · exact ⟨_, rfl⟩
  · exact ⟨_, rfl⟩

/-- C4: an ATX heading line — H leading hashes followed by non-empty
    title text — contributes no event exactly when `0 < maxDepth` and
    the raw hash count H exceeds `maxDepth` (so `maxDepth = 0` excludes
    nothing), and on `# A`, `## B`, `### C` with `maxDepth = 2` the TOC
    holds A and B only, with no error and scanning past the excluded
    heading. -/
theorem c4_depth_filter_uses_raw_hash_count (H : Nat) (T : List Char) (prev : String)
    (d : Int) (hH : 0 < H) (hT : T ≠ [])
    (hhd : ∀ c, T.head? = some c → c ≠ '#') :
    (lineEvents d prev (String.mk (List.replicate H '#' ++ T)) = [] ↔
      0 < d ∧ d < (H : Int))
    ∧ BuildMarkdownToc ["# A", "## B", "### C"] none 2 0 =
        (["Table of Contents", "=================", "1. [A](#a)", "   1. [B](#b)"], none) := by
  constructor
  · obtain ⟨t, hm⟩ := hashHeaderMatch_atx hH hT hhd
    have hdata : (String.mk (List.replicate H '#' ++ T)).data
        = List.replicate H '#' ++ T := rfl
    unfold lineEvents
    rw [hdata, hm]
    by_cases hd : 0 < d ∧ d < (H : Int)
    · simp [hd]
    · simp [hd]
  · decide

theorem c4_depth_filter_uses_raw_hash_count_witness :
    (lineEvents 2 "" (String.mk (List.replicate 3 '#' ++ ['C'])) = [] ↔
      0 < (2 : Int) ∧ (2 : Int) < ((3 : Nat) : Int))
    ∧ BuildMarkdownToc ["# A", "## B", "### C"] none 2 0 =
        (["Table of Contents", "=================", "1. [A](#a)", "   1. [B](#b)"], none) :=
  c4_depth_filter_uses_raw_hash_count 3 ['C'] "" 2 (by decide) (by decide)
    (fun c h => by simp at h; rw [← h]; decide)
theorem emitToc_slug_of_base : ∀ (evs : List (String × Nat)) (skip : Int)
    (seen : SlugRegistry) (b : String) (n : Nat),
    mapLookup seen b = some n →
    ∀ e ∈ (emitToc skip seen evs).1, slugify e.title = b →
      ∃ m, n ≤ m ∧ e.slug = b ++ "-" ++ decRepr m := by
  intro evs
  induction evs with
  | nil => intro skip seen b n _ e he; simp [emitToc] at he
  | cons ev rest ih =>
    intro skip seen b n hlk e he hbase
    obtain ⟨t, dep⟩ := ev
    by_cases hs : 0 < skip
    · rw [show (emitToc skip seen ((t, dep) :: rest)).1
          = (emitToc (skip - 1) seen rest).1 by simp [emitToc, hs]] at he
      exact ih (skip - 1) seen b n hlk e he hbase
    · cases hl : mapLookup seen (slugify t) with
      | some k =>
        rw [show (emitToc skip seen ((t, dep) :: rest)).1
            = ⟨t, slugify t ++ "-" ++ decRepr k, dep⟩ ::
              (emitToc skip (mapSet seen (slugify t) (k + 1)) rest).1 by
            simp [emitToc, hs, hl]] at he
        rcases List.mem_cons.mp he with hhead | htail
        · rw [hhead] at hbase ⊢
          simp only at hbase ⊢
          rw [hbase] at hl
          rw [hl] at hlk
          have hkn : k = n := Option.some.inj hlk
          exact ⟨n, le_refl n, by rw [hbase, hkn]⟩
        · by_cases hbt : slugify t = b
          · have hkn : k = n := by
              rw [hbt] at hl; rw [hl] at hlk; exact Option.some.inj hlk
            have hlk2 : mapLookup (mapSet seen (slugify t) (k + 1)) b = some (k + 1) := by
              rw [← hbt]; exact mapLookup_mapSet_self seen (slugify t) (k + 1)
            obtain ⟨m, hm, hslug⟩ := ih skip _ b (k + 1) hlk2 e htail hbase
            exact ⟨m, by omega, hslug⟩
          · have hlk2 : mapLookup (mapSet seen (slugify t) (k + 1)) b = some n := by
              rw [mapLookup_mapSet_ne seen (slugify t) b (k + 1)
                (fun h => hbt h.symm)]
              exact hlk
            exact ih skip _ b n hlk2 e htail hbase
      | none =>
        rw [show (emitToc skip seen ((t, dep) :: rest)).1
            = ⟨t, slugify t, dep⟩ ::
              (emitToc skip (mapSet seen (slugify t) 1) rest).1 by
            simp [emitToc, hs, hl]] at he
        rcases List.mem_cons.mp he with hhead | htail
        · rw [hhead] at hbase
          simp only at hbase
          rw [hbase] at hl
          rw [hl] at hlk
          exact absurd hlk (by simp)
        · by_cases hbt : slugify t = b
          · rw [hbt] at hl; rw [hl] at hlk; exact absurd hlk (by simp)
          · have hlk2 : mapLookup (mapSet seen (slugify t) 1) b = some n := by
              rw [mapLookup_mapSet_ne seen (slugify t) b 1 (fun h => hbt h.symm)]
              exact hlk
            exact ih skip _ b n hlk2 e htail hbase

theorem emitToc_pairwise_base_distinct : ∀ (evs : List (String × Nat)) (skip : Int)
    (seen : SlugRegistry), (∀ p ∈ seen, 1 ≤ p.2) →
    List.Pairwise (fun e₁ e₂ => slugify e₁.title = slugify e₂.title → e₁.slug ≠ e₂.slug)
      (emitToc skip seen evs).1 := by
  intro evs
  induction evs with
  | nil => intro skip seen _; simp [emitToc]
  | cons ev rest ih =>
    intro skip seen hinv
    obtain ⟨t, dep⟩ := ev
    by_cases hs : 0 < skip
    · rw [show (emitToc skip seen ((t, dep) :: rest)).1
          = (emitToc (skip - 1) seen rest).1 by simp [emitToc, hs]]
      exact ih (skip - 1) seen hinv
    · cases hl : mapLookup seen (slugify t) with
      | some k =>
        rw [show (emitToc skip seen ((t, dep) :: rest)).1
            = ⟨t, slugify t ++ "-" ++ decRepr k, dep⟩ ::
              (emitToc skip (mapSet seen (slugify t) (k + 1)) rest).1 by
            simp [emitToc, hs, hl]]
        have hk1 : 1 ≤ k := hinv (slugify t, k) (mapLookup_mem hl)
        refine List.Pairwise.cons ?_ (ih skip _ (mapSet_forall_val hinv (by omega)))
        intro e he heq hcontra
        have hlk2 : mapLookup (mapSet seen (slugify t) (k + 1)) (slugify t) = some (k + 1) :=
          mapLookup_mapSet_self seen (slugify t) (k + 1)
        obtain ⟨m, hm, hslug⟩ :=
          emitToc_slug_of_base rest skip _ (slugify t) (k + 1) hlk2 e he
            (by simp only at heq; exact heq.symm)
        simp only at hcontra
        rw [hslug] at hcontra
        have := suffix_slug_inj hcontra
        omega
      | none =>
        rw [show (emitToc skip seen ((t, dep) :: rest)).1
            = ⟨t, slugify t, dep⟩ ::
              (emitToc skip (mapSet seen (slugify t) 1) rest).1 by
            simp [emitToc, hs, hl]]
        refine List.Pairwise.cons ?_ (ih skip _ (mapSet_forall_val hinv (le_refl 1)))
        intro e he heq hcontra
        have hlk2 : mapLookup (mapSet seen (slugify t) 1) (slugify t) = some 1 :=
          mapLookup_mapSet_self seen (slugify t) 1
        obtain ⟨m, hm, hslug⟩ :=
          emitToc_slug_of_base rest skip _ (slugify t) 1 hlk2 e he
            (by simp only at heq; exact heq.symm)
        simp only at hcontra
        rw [hslug] at hcontra
        exact suffix_slug_ne_base (slugify t) m hcontra

/-- C1 counterexample: in the document `# a-1`, `# a`, `# a` the third
    heading collides with the second (base slug `a`) and receives the
    suffix `-1`, producing the slug `a-1` — identical to the first
    entry's slug.  Two emitted entries carry the same anchor target, so
    emitted slugs are NOT always unique within one call. -/
theorem c1_counterexample_duplicate_slug :
    (tocEntries ["# a-1", "# a", "# a"] 0 0).map TocEntry.slug = ["a-1", "a", "a-1"]
    ∧ ¬ ((tocEntries ["# a-1", "# a", "# a"] 0 0).map TocEntry.slug).Nodup
    ∧ BuildMarkdownToc ["# a-1", "# a", "# a"] none 0 0 =
        (["Table of Contents", "=================",
          "1. [a-1](#a-1)", "1. [a](#a)", "1. [a](#a-1)"], none) :=
  ⟨by decide, by decide, by decide⟩

/-- C1 amended: within a single TOC-build call, any two emitted entries
    whose titles slugify to the same base slug receive distinct slugs
    (the registry numbers repeats of a base consecutively); uniqueness
    can only fail across different base slugs, when one base equals
    another base extended with a `-N` suffix.  The second conjunct ties
    the entry list to the output of `BuildMarkdownToc`. -/
theorem c1_amended_same_base_slugs_distinct (lines : List String) (depth skip : Int) :
    List.Pairwise (fun e₁ e₂ => slugify e₁.title = slugify e₂.title → e₁.slug ≠ e₂.slug)
      (tocEntries lines depth skip)
    ∧ BuildMarkdownToc lines none depth skip =
        (tocBanner ++ (tocEntries lines depth skip).map renderEntry, none) :=
  ⟨emitToc_pairwise_base_distinct (scanEvents depth "" lines) skip [] (by simp),
   buildToc_none lines depth skip⟩

theorem escChars_cons (c : Char) (rest : List Char) (hc : c ≠ '\n')
    (h2 : c = '\r' → rest.head? ≠ some '\n') :
    escChars (c :: rest) = c :: escChars rest := by
  by_cases hr : c = '\r'
  · subst hr
    cases rest with
    | nil => rfl
    | cons d ds =>
      have hd : d ≠ '\n' := by
        intro h
        exact h2 rfl (by rw [h]; rfl)
      simp [escChars, hd]
  · simp [escChars, hr, hc]

theorem escChars_no_newline : ∀ (l : List Char), '\n' ∉ escChars l := by
  intro l
  induction l using escChars.induct with
  | case1 => simp [escChars]
  | case2 rest ih => simp [escChars]; exact ih
  | case3 rest ih => simp [escChars]; exact ih
  | case4 c rest h1 h2 ih =>
    have hhd : c = '\r' → rest.head? ≠ some '\n' := by
      intro hcr hh
      cases rest with
      | nil => simp at hh
      | cons d ds =>
        simp at hh
        exact h1 ds hcr (by rw [hh])
    rw [escChars_cons c rest h2 hhd]
    intro hmem
    rcases List.mem_cons.mp hmem with heq | hmem2
    · exact h2 heq.symm
    · exact ih hmem2

theorem escChars_of_no_newline : ∀ (l : List Char), '\n' ∉ l → escChars l = l := by
  intro l
  induction l with
  | nil => intro _; rfl
  | cons c cs ih =>
    intro h
    have hc : c ≠ '\n' := fun hh => h (by rw [hh]; exact List.mem_cons_self '\n' cs)
    have hcs : '\n' ∉ cs := fun hh => h (List.mem_cons_of_mem _ hh)
    have hhd : c = '\r' → cs.head? ≠ some '\n' := by
      intro _ hh
      cases cs with
      | nil => simp at hh
      | cons d ds =>
        simp at hh
        exact hcs (hh ▸ List.mem_cons_self d ds)
    rw [escChars_cons c cs hc hhd, ih hcs]

theorem escChars_append_crlf : ∀ (a b : List Char), '\n' ∉ a →
    escChars (a ++ '\r' :: '\n' :: b) = a ++ '<' :: 'b' :: 'r' :: '>' :: escChars b := by
  intro a
  induction a with
  | nil => intro b _; rfl
  | cons c cs ih =>
    intro b h
    have hc : c ≠ '\n' := fun hh => h (by rw [hh]; exact List.mem_cons_self '\n' cs)
    have hcs : '\n' ∉ cs := fun hh => h (List.mem_cons_of_mem _ hh)
    have hhd : c = '\r' → (cs ++ '\r' :: '\n' :: b).head? ≠ some '\n' := by
      intro _ hh
      cases cs with
      | nil => simp at hh
      | cons d ds =>
        simp at hh
        exact hcs (hh ▸ List.mem_cons_self d ds)
    rw [List.cons_append, escChars_cons c _ hc hhd, ih b hcs]
    rfl

theorem escChars_append_lf : ∀ (a b : List Char), '\n' ∉ a → a.getLast? ≠ some '\r' →
    escChars (a ++ '\n' :: b) = a ++ '<' :: 'b' :: 'r' :: '>' :: escChars b := by
  intro a
  induction a with
  | nil => intro b _ _; rfl
  | cons c cs ih =>
    intro b h hlast
    have hc : c ≠ '\n' := fun hh => h (by rw [hh]; exact List.mem_cons_self '\n' cs)
    have hcs : '\n' ∉ cs := fun hh => h (List.mem_cons_of_mem _ hh)
    cases cs with
    | nil =>
      have hcr : c ≠ '\r' := fun hh => hlast (by rw [hh]; rfl)
      rw [List.cons_append, List.nil_append,
        escChars_cons c ('\n' :: b) hc (fun hr => absurd hr hcr)]
      rfl
    | cons d ds =>
      have hlast2 : (d :: ds).getLast? ≠ some '\r' := by
        rw [← List.getLast?_cons_cons]
        exact hlast
      have hhd : c = '\r' → ((d :: ds) ++ '\n' :: b).head? ≠ some '\n' := by
        intro _ hh
        simp at hh
        exact hcs (hh ▸ List.mem_cons_self d ds)
      rw [List.cons_append, escChars_cons c _ hc hhd, ih b hcs hlast2]
      rfl

/-- C7: cell escaping replaces every CRLF pair and every bare newline
    with the literal marker `<br>`, changes no other character (a
    newline-free cell — pipes included — passes through verbatim), and
    its output never contains a literal newline. -/
theorem c7_cell_escape_br :
    (∀ s : String, '\n' ∉ (MarkdownTableCellEscape s).data)
    ∧ (∀ s : String, '\n' ∉ s.data → MarkdownTableCellEscape s = s)
    ∧ (∀ a b : String, '\n' ∉ a.data →
        MarkdownTableCellEscape (a ++ "\r\n" ++ b) = a ++ "<br>" ++ MarkdownTableCellEscape b)
    ∧ (∀ a b : String, '\n' ∉ a.data → a.data.getLast? ≠ some '\r' →
        MarkdownTableCellEscape (a ++ "\n" ++ b) = a ++ "<br>" ++ MarkdownTableCellEscape b) := by
  refine ⟨fun s => escChars_no_newline s.data,
    fun s h => string_ext (escChars_of_no_newline s.data h),
    fun a b h => string_ext ?_, fun a b h hl => string_ext ?_⟩
  · have h1 : (a ++ "\r\n" ++ b).data = a.data ++ '\r' :: '\n' :: b.data := by
      simp [string_data_append]
    show escChars (a ++ "\r\n" ++ b).data = (a ++ "<br>" ++ MarkdownTableCellEscape b).data
    rw [h1, escChars_append_crlf a.data b.data h]
    simp [string_data_append, MarkdownTableCellEscape]
  · have h1 : (a ++ "\n" ++ b).data = a.data ++ '\n' :: b.data := by
      simp [string_data_append]
    show escChars (a ++ "\n" ++ b).data = (a ++ "<br>" ++ MarkdownTableCellEscape b).data
    rw [h1, escChars_append_lf a.data b.data h hl]
    simp [string_data_append, MarkdownTableCellEscape]

theorem c7_cell_escape_br_witness :
    ('\n' ∉ (MarkdownTableCellEscape "x\r\ny").data)
    ∧ MarkdownTableCellEscape "a|b" = "a|b"
    ∧ MarkdownTableCellEscape ("x|y" ++ "\r\n" ++ "z") = "x|y" ++ "<br>" ++ MarkdownTableCellEscape "z"
    ∧ MarkdownTableCellEscape ("p" ++ "\n" ++ "q") = "p" ++ "<br>" ++ MarkdownTableCellEscape "q" :=
  ⟨c7_cell_escape_br.1 "x\r\ny",
   c7_cell_escape_br.2.1 "a|b" (by decide),
   c7_cell_escape_br.2.2.1 "x|y" "z" (by decide),
   c7_cell_escape_br.2.2.2 "p" "q" (by decide) (by decide)⟩

theorem splitOnChar_of_not_mem (sep : Char) : ∀ (l : List Char), sep ∉ l →
    splitOnChar sep l = [l] := by
  intro l
  induction l with
  | nil => intro _; rfl
  | cons c cs ih =>
    intro h
    have hc : ¬ c = sep := fun hh => h (by rw [hh]; exact List.mem_cons_self sep cs)
    have hcs : sep ∉ cs := fun hh => h (List.mem_cons_of_mem _ hh)
    simp [splitOnChar, hc, ih hcs]

theorem splitOnChar_append (sep : Char) : ∀ (a b : List Char), sep ∉ a →
    splitOnChar sep (a ++ sep :: b) = a :: splitOnChar sep b := by
  intro a
  induction a with
  | nil => intro b _; simp [splitOnChar]
  | cons c cs ih =>
    intro b h
    have hc : ¬ c = sep := fun hh => h (by rw [hh]; exact List.mem_cons_self sep cs)
    have hcs : sep ∉ cs := fun hh => h (List.mem_cons_of_mem _ hh)
    simp only [List.cons_append, splitOnChar, hc, if_false, List.append_eq]
    rw [ih b hcs]

theorem string_mk_data (s : String) : String.mk s.data = s := rfl

theorem pipeRow_no_newline (a b : String) (ha : '\n' ∉ a.data) (hb : '\n' ∉ b.data) :
    '\n' ∉ ("| " ++ a ++ " | " ++ b ++ " |").data := by
  simp [string_data_append, ha, hb]

theorem pipeRow_head_last (a b : String) :
    ("| " ++ a ++ " | " ++ b ++ " |").data.head? = some '|'
    ∧ ("| " ++ a ++ " | " ++ b ++ " |").data.getLast? = some '|' := by
  constructor
  · simp [string_data_append]
  · have h : ("| " ++ a ++ " | " ++ b ++ " |").data
        = (("| " ++ a ++ " | " ++ b).data ++ [' ']) ++ ['|'] := by
      simp [string_data_append]
    rw [h, List.getLast?_concat]

/-- C6: a table with two (newline-free) headers, two rule tokens and
    one data row renders as exactly three physical text lines — header
    row, separator row with the rule tokens verbatim, data row with
    each cell escaped — each line starting and ending with a pipe. -/
theorem c6_table_shape (h1 h2 r1 r2 c1 c2 : String)
    (hh1 : '\n' ∉ h1.data) (hh2 : '\n' ∉ h2.data)
    (hr1 : '\n' ∉ r1.data) (hr2 : '\n' ∉ r2.data) :
    textLines (MarkdownTable [h1, h2] [r1, r2] [[c1, c2]]) =
      ["| " ++ h1 ++ " | " ++ h2 ++ " |",
       "| " ++ r1 ++ " | " ++ r2 ++ " |",
       "| " ++ MarkdownTableCellEscape c1 ++ " | " ++ MarkdownTableCellEscape c2 ++ " |"]
    ∧ ∀ l ∈ textLines (MarkdownTable [h1, h2] [r1, r2] [[c1, c2]]),
        l.data.head? = some '|' ∧ l.data.getLast? = some '|' := by
  have hS : (MarkdownTable [h1, h2] [r1, r2] [[c1, c2]]).data
      = ("| " ++ h1 ++ " | " ++ h2 ++ " |").data ++ '\n' ::
        (("| " ++ r1 ++ " | " ++ r2 ++ " |").data ++ '\n' ::
          ("| " ++ MarkdownTableCellEscape c1 ++ " | " ++
            MarkdownTableCellEscape c2 ++ " |").data) := by
    simp [MarkdownTable, string_data_append]
  have hL1 := pipeRow_no_newline h1 h2 hh1 hh2
  have hL2 := pipeRow_no_newline r1 r2 hr1 hr2
  have hL3 := pipeRow_no_newline (MarkdownTableCellEscape c1) (MarkdownTableCellEscape c2)
    (escChars_no_newline c1.data) (escChars_no_newline c2.data)
  have ht : textLines (MarkdownTable [h1, h2] [r1, r2] [[c1, c2]]) =
      ["| " ++ h1 ++ " | " ++ h2 ++ " |",
       "| " ++ r1 ++ " | " ++ r2 ++ " |",
       "| " ++ MarkdownTableCellEscape c1 ++ " | " ++ MarkdownTableCellEscape c2 ++ " |"] := by
    unfold textLines
    rw [hS, splitOnChar_append '\n' _ _ hL1, splitOnChar_append '\n' _ _ hL2,
      splitOnChar_of_not_mem '\n' _ hL3]
    simp only [List.map_cons, List.map_nil, string_mk_data]
  refine ⟨ht, ?_⟩
  intro l hl
  rw [ht] at hl
  rcases List.mem_cons.mp hl with h | hl
  · rw [h]; exact pipeRow_head_last h1 h2
  rcases List.mem_cons.mp hl with h | hl
  · rw [h]; exact pipeRow_head_last r1 r2
  rcases List.mem_cons.mp hl with h | hl
  · rw [h]; exact pipeRow_head_last (MarkdownTableCellEscape c1) (MarkdownTableCellEscape c2)
  · simp at hl

theorem c6_table_shape_witness :
    textLines (MarkdownTable ["Variable", "Type"] ["----", "------"] [["x", "string"]]) =
      ["| " ++ "Variable" ++ " | " ++ "Type" ++ " |",
       "| " ++ "----" ++ " | " ++ "------" ++ " |",
       "| " ++ MarkdownTableCellEscape "x" ++ " | " ++ MarkdownTableCellEscape "string" ++ " |"]
    ∧ ∀ l ∈ textLines (MarkdownTable ["Variable", "Type"] ["----", "------"] [["x", "string"]]),
        l.data.head? = some '|' ∧ l.data.getLast? = some '|' :=
  c6_table_shape "Variable" "Type" "----" "------" "x" "string"
    (by decide) (by decide) (by decide) (by decide)

theorem mapSet_of_fresh {α : Type} : ∀ (m : List (String × α)) (k : String) (v : α),
    (∀ p ∈ m, p.1 ≠ k) → mapSet m k v = m ++ [(k, v)] := by
  intro m k v
  induction m with
  | nil => intro _; rfl
  | cons q rest ih =>
    intro h
    have hq : ¬ q.1 = k := h q (List.mem_cons_self q rest)
    simp [mapSet, hq]
    exact ih (fun p hp => h p (List.mem_cons_of_mem _ hp))

theorem buildObjs_eq_map (u p : String) : ∀ (items : List TfVariable)
    (m : List (String × TfTableObject)),
    (∀ it ∈ items, ∀ q ∈ m, q.1 ≠ it.name) →
    (items.map TfVariable.name).Nodup →
    items.foldl (fun acc it => mapSet acc it.name (varTableObject u p it)) m
      = m ++ items.map (fun it => (it.name, varTableObject u p it)) := by
  intro items
  induction items with
  | nil => intro m _ _; simp
  | cons j rest ih =>
    intro m hfresh hnd
    simp only [List.foldl_cons]
    rw [mapSet_of_fresh m j.name (varTableObject u p j)
      (fun q hq => hfresh j (List.mem_cons_self j rest) q hq)]
    rw [ih (m ++ [(j.name, varTableObject u p j)]) ?fresh ?nd]
    · simp
    case fresh =>
      intro it hit q hq
      rcases List.mem_append.mp hq with hq | hq
      · exact hfresh it (List.mem_cons_of_mem _ hit) q hq
      · simp at hq
        rw [hq]
        simp only [List.map_cons, List.nodup_cons] at hnd
        intro hcontra
        apply hnd.1
        rw [show j.name = it.name from hcontra]
        exact List.mem_map_of_mem TfVariable.name hit
    case nd =>
      simp only [List.map_cons, List.nodup_cons] at hnd
      exact hnd.2

theorem mapLookup_map_pair_some (u p : String) : ∀ (items : List TfVariable)
    (it : TfVariable) (hnd : (items.map TfVariable.name).Nodup) (hit : it ∈ items),
    mapLookup (items.map (fun j => (j.name, varTableObject u p j))) it.name
      = some (varTableObject u p it) := by
  intro items
  induction items with
  | nil => intro it _ hit; simp at hit
  | cons j rest ih =>
    intro it hnd hit
    simp only [List.map_cons, List.nodup_cons] at hnd
    by_cases hj : j.name = it.name
    · have hji : j = it := by
        rcases List.mem_cons.mp hit with h | h
        · exact h.symm
        · exact absurd (hj ▸ List.mem_map_of_mem TfVariable.name h) hnd.1
      simp [mapLookup, hj, ← hji]
    · have hmem : it ∈ rest := by
        rcases List.mem_cons.mp hit with h | h
        · exact absurd (congrArg TfVariable.name h.symm) hj
        · exact h
      simp only [List.map_cons, mapLookup, hj, if_false]
      exact ih it hnd.2 hmem

theorem mapSet_forall_pair {α : Type} {P : String × α → Prop} :
    ∀ {m : List (String × α)} {k : String} {v : α},
    (∀ q ∈ m, P q) → P (k, v) → ∀ q ∈ mapSet m k v, P q := by
  intro m
  induction m with
  | nil => intro k v _ hv q hq; simp [mapSet] at hq; rw [hq]; exact hv
  | cons r rest ih =>
    intro k v hm hv q hq
    by_cases hr : r.1 = k
    · simp [mapSet, hr] at hq
      rcases hq with h | h
      · rw [h]; exact hv
      · exact hm q (List.mem_cons_of_mem _ h)
    · simp only [mapSet, hr, if_false] at hq
      rcases List.mem_cons.mp hq with h | h
      · rw [h]; exact hm r (List.mem_cons_self r rest)
      · exact ih (fun q hqm => hm q (List.mem_cons_of_mem _ hqm)) hv q h

theorem buildObjs_eq_map_of_nodup (u p : String) (items : List TfVariable)
    (hnd : (items.map TfVariable.name).Nodup) :
    buildObjs u p items = items.map (fun it => (it.name, varTableObject u p it)) := by
  have h := buildObjs_eq_map u p items [] (by simp) hnd
  simpa [buildObjs] using h

theorem buildObjs_name_key (u p : String) (items : List TfVariable) :
    ∀ q ∈ buildObjs u p items, q.2.Name = q.1 := by
  suffices h : ∀ (m : List (String × TfTableObject)), (∀ q ∈ m, q.2.Name = q.1) →
      ∀ q ∈ items.foldl (fun acc it => mapSet acc it.name (varTableObject u p it)) m,
        q.2.Name = q.1 by
    exact h [] (by simp)
  induction items with
  | nil => intro m hm q hq; exact hm q hq
  | cons j rest ih =>
    intro m hm q hq
    simp only [List.foldl_cons] at hq
    exact ih (mapSet m j.name (varTableObject u p j))
      (mapSet_forall_pair (fun r hr => hm r hr) rfl) q hq

theorem mapLookup_of_mem_keys {α : Type} : ∀ (m : List (String × α)) (k : String),
    k ∈ m.map Prod.fst → ∃ v, mapLookup m k = some v := by
  intro m
  induction m with
  | nil => intro k hk; simp at hk
  | cons q rest ih =>
    intro k hk
    by_cases hq : q.1 = k
    · exact ⟨q.2, by simp [mapLookup, hq]⟩
    · simp only [List.map_cons, List.mem_cons] at hk
      rcases hk with h | h
      · exact absurd h.symm hq
      · simp only [mapLookup, hq, if_false]
        exact ih k h

theorem varsTableData_names (u p : String) (items : List TfVariable) :
    (varsTableData u p items).map (fun r => r.headD "")
      = getSortedKeys (buildObjs u p items) := by
  simp only [varsTableData, List.map_map]
  have h : ∀ k ∈ getSortedKeys (buildObjs u p items),
      ((fun r : List String => r.headD "") ∘ fun k =>
        [(objAt (buildObjs u p items) k).Name, (objAt (buildObjs u p items) k).Typ,
         (objAt (buildObjs u p items) k).Description,
         (objAt (buildObjs u p items) k).Location]) k = id k := by
    intro k hk
    have hmem : k ∈ (buildObjs u p items).map Prod.fst :=
      (List.perm_insertionSort (fun a b => strLeB a b = true)
        ((buildObjs u p items).map Prod.fst)).mem_iff.mp hk
    obtain ⟨v, hv⟩ := mapLookup_of_mem_keys (buildObjs u p items) k hmem
    have hname : v.Name = k :=
      buildObjs_name_key u p items (k, v) (mapLookup_mem hv)
    simp [objAt, hv, hname]
  rw [List.map_congr_left h, List.map_id]

theorem getVarsTable_perm_invariant (u p : String) (items items₂ : List TfVariable)
    (hperm : items.Perm items₂) (hnd : (items.map TfVariable.name).Nodup) :
    GetVarsTable items u p = GetVarsTable items₂ u p := by
  have hnd₂ : (items₂.map TfVariable.name).Nodup :=
    ((hperm.map TfVariable.name).nodup_iff).mp hnd
  have hb1 := buildObjs_eq_map_of_nodup u p items hnd
  have hb2 := buildObjs_eq_map_of_nodup u p items₂ hnd₂
  have hk1 : (buildObjs u p items).map Prod.fst = items.map TfVariable.name := by
    rw [hb1, List.map_map]; rfl
  have hk2 : (buildObjs u p items₂).map Prod.fst = items₂.map TfVariable.name := by
    rw [hb2, List.map_map]; rfl
  have hkeys : getSortedKeys (buildObjs u p items) = getSortedKeys (buildObjs u p items₂) := by
    unfold getSortedKeys
    have hmid : List.Perm ((buildObjs u p items).map Prod.fst)
        ((buildObjs u p items₂).map Prod.fst) := by
      rw [hk1, hk2]; exact hperm.map TfVariable.name
    have hps : List.Perm
        (List.insertionSort (fun a b => strLeB a b = true)
          ((buildObjs u p items).map Prod.fst))
        (List.insertionSort (fun a b => strLeB a b = true)
          ((buildObjs u p items₂).map Prod.fst)) :=
      (List.perm_insertionSort _ _).trans
        (hmid.trans (List.perm_insertionSort _ _).symm)
    exact List.eq_of_perm_of_sorted hps
      (List.sorted_insertionSort _ _) (List.sorted_insertionSort _ _)
  unfold GetVarsTable
  congr 1
  simp only [varsTableData]
  rw [hkeys]
  apply List.map_congr_left
  intro k hk
  have hmem : k ∈ items₂.map TfVariable.name := by
    rw [← hk2]
    exact (List.perm_insertionSort (fun a b => strLeB a b = true)
      ((buildObjs u p items₂).map Prod.fst)).mem_iff.mp hk
  obtain ⟨it, hit, hname⟩ := List.mem_map.mp hmem
  have h2 : mapLookup (buildObjs u p items₂) k = some (varTableObject u p it) := by
    rw [hb2, ← hname]
    exact mapLookup_map_pair_some u p items₂ it hnd₂ hit
  have h1 : mapLookup (buildObjs u p items) k = some (varTableObject u p it) := by
    rw [hb1, ← hname]
    exact mapLookup_map_pair_some u p items it hnd (hperm.mem_iff.mpr hit)
  simp [objAt, h1, h2]

/-- C8: the variables table keys each row by the item's name (each
    emitted row's first cell is its key), emits rows sorted
    lexicographically ascending by that key, and — for distinct names —
    the rendered table is independent of the input iteration order;
    items named zeta, alpha, mu render in the order alpha, mu, zeta. -/
theorem c8_rows_keyed_and_sorted (u p : String) (items items₂ : List TfVariable)
    (hperm : items.Perm items₂) (hnd : (items.map TfVariable.name).Nodup) :
    (∀ its : List TfVariable,
        List.Sorted (fun a b => strLeB a b = true)
          ((varsTableData u p its).map (fun r => r.headD "")))
    ∧ GetVarsTable items u p = GetVarsTable items₂ u p
    ∧ (varsTableData "url" "mod"
        [⟨"zeta", "string", "", "a.tf", 1⟩, ⟨"alpha", "string", "", "a.tf", 2⟩,
         ⟨"mu", "string", "", "a.tf", 3⟩]).map (fun r => r.headD "")
        = ["alpha", "mu", "zeta"] := by
  refine ⟨fun its => ?_, getVarsTable_perm_invariant u p items items₂ hperm hnd, by decide⟩
  rw [varsTableData_names u p its]
  unfold getSortedKeys
  exact List.sorted_insertionSort _ _

theorem c8_rows_keyed_and_sorted_witness :
    (∀ its : List TfVariable,
        List.Sorted (fun a b => strLeB a b = true)
          ((varsTableData "url" "mod" its).map (fun r => r.headD "")))
    ∧ GetVarsTable [⟨"a", "t", "d", "f.tf", 1⟩, ⟨"b", "t", "d", "f.tf", 2⟩] "url" "mod"
        = GetVarsTable [⟨"b", "t", "d", "f.tf", 2⟩, ⟨"a", "t", "d", "f.tf", 1⟩] "url" "mod"
    ∧ (varsTableData "url" "mod"
        [⟨"zeta", "string", "", "a.tf", 1⟩, ⟨"alpha", "string", "", "a.tf", 2⟩,
         ⟨"mu", "string", "", "a.tf", 3⟩]).map (fun r => r.headD "")
        = ["alpha", "mu", "zeta"] :=
  c8_rows_keyed_and_sorted "url" "mod"
    [⟨"a", "t", "d", "f.tf", 1⟩, ⟨"b", "t", "d", "f.tf", 2⟩]
    [⟨"b", "t", "d", "f.tf", 2⟩, ⟨"a", "t", "d", "f.tf", 1⟩]
    (List.Perm.swap (⟨"b", "t", "d", "f.tf", 2⟩ : TfVariable)
      (⟨"a", "t", "d", "f.tf", 1⟩ : TfVariable) [])
    (by decide)
